import Mathlib

/-!
# Verification of the hashguard core against its specification

This file gives a shallow embedding, in Lean 4, of the parts of the
hashguard sources that the specification talks about, and proves (or
refutes) the specified properties.

Modelling conventions:

* Byte strings are `List Nat` (each element a byte value); character
  strings handed to the CLI-facing functions are `List Char`.
* The digest engine (`src/hasher.rs`, enum `Hasher`) wraps eight SHA-2 /
  SHA-3 implementations behind `update`/`finalize`.  The final digest is a
  fixed function of exactly the sequence of bytes fed through `update`,
  so this development models a digest state as the list of bytes fed so
  far (`hashUpdate` appends).  Statements about digests are stated at the
  level of that fed byte sequence: equal sequences give literally equal
  digests, distinct sequences give distinct digests for the concrete hash
  functions up to hash collisions.
* Fallible I/O paths are modelled with `Except`; the theorems about
  digest values concern the successful runs, matching the specification
  (a failed run aborts without producing a digest).
-/

/-! ## Digest engine (src/hasher.rs, `Hasher::update`)

`Hasher::update` feeds bytes into the active algorithm's state.  The
state is modelled as the accumulated byte sequence. -/

def hashUpdate (h : List Nat) (data : List Nat) : List Nat := h ++ data

/-- `utils::CAPACITY`, the fixed read-buffer size (64 KiB) used by the
streaming file reads in `src/local.rs`. -/
def CAPACITY : Nat := 64 * 1024

/-- The buffered read loop of `src/local.rs` delivers a file's bytes in
buffer-sized chunks; `chunksOf cap l` is the sequence of chunks the loop
feeds for content `l` with buffer capacity `cap`. -/
def chunksOf (cap : Nat) (l : List Nat) : List (List Nat) :=
  if l = [] then []
  else if cap = 0 then []
  else l.take cap :: chunksOf cap (l.drop cap)
termination_by l.length
decreasing_by
  simp only [List.length_drop]
  rename_i hne hcap
  exact Nat.sub_lt (List.length_pos.mpr hne) (Nat.pos_of_ne_zero hcap)

theorem flatten_chunksOf (cap : Nat) (hc : 0 < cap) (l : List Nat) :
    (chunksOf cap l).flatten = l := by
  by_cases hne : l = []
  · subst hne; simp [chunksOf]
  · rw [chunksOf, if_neg hne, if_neg (Nat.pos_iff_ne_zero.mp hc)]
    simp only [List.flatten_cons]
    rw [flatten_chunksOf cap hc (l.drop cap)]
    exact List.take_append_drop cap l
termination_by l.length
decreasing_by
  simp only [List.length_drop]
  exact Nat.sub_lt (List.length_pos.mpr hne) hc

theorem foldl_hashUpdate (h : List Nat) (cs : List (List Nat)) :
    cs.foldl hashUpdate h = h ++ cs.flatten := by
  induction cs generalizing h with
  | nil => simp
  | cons c cs ih => simp [hashUpdate, ih, List.append_assoc]

/-! ## Local content hasher (src/local.rs)

A directory entry as produced by the `WalkDir` enumeration in
`hash_directory`, after the root itself has been filtered out.  The
source sorts entries by their absolute path (`sort_by_key` on
`e.path()`); all entries share the root path as a common prefix of that
key, so comparing the root-relative paths (as byte strings, here `rel`)
induces the same order.  The theorems below depend only on this being a
fixed total order.  `content` is the file's byte content (empty and
irrelevant for subdirectories, whose bytes are never read). -/

structure DirEntry where
  rel : List Nat
  isFile : Bool
  content : List Nat
  deriving DecidableEq, Repr

/-- Lexicographic order on byte strings, the order in which `WalkDir`'s
`sort_by_key(|e| e.path().to_path_buf())` yields the entries. -/
def lexLe : List Nat → List Nat → Bool
  | [], _ => true
  | _ :: _, [] => false
  | a :: as, b :: bs =>
      if a < b then true
      else if b < a then false
      else lexLe as bs

theorem lexLe_trans : ∀ a b c, lexLe a b = true → lexLe b c = true →
    lexLe a c = true := by
  intro a
  induction a with
  | nil => intro b c _ _; rfl
  | cons x xs ih =>
      intro b c hab hbc
      cases b with
      | nil => simp [lexLe] at hab
      | cons y ys =>
          cases c with
          | nil => simp [lexLe] at hbc
          | cons z zs =>
              simp only [lexLe] at hab hbc ⊢
              by_cases h1 : x < y <;> by_cases h2 : y < x <;>
                by_cases h3 : y < z <;> by_cases h4 : z < y <;>
                by_cases h5 : x < z <;> by_cases h6 : z < x <;>
                simp_all <;> try omega
              exact Or.inr (ih ys zs hab hbc)

theorem lexLe_total : ∀ a b, (lexLe a b || lexLe b a) = true := by
  intro a
  induction a with
  | nil => intro b; simp [lexLe]
  | cons x xs ih =>
      intro b
      cases b with
      | nil => simp [lexLe]
      | cons y ys =>
          simp only [lexLe]
          rcases Nat.lt_trichotomy x y with h | h | h
          · simp [h]
          · simp [h, Nat.lt_irrefl, ih ys]
          · simp [h, Nat.lt_asymm h]

theorem lexLe_antisymm : ∀ a b, lexLe a b = true → lexLe b a = true →
    a = b := by
  intro a
  induction a with
  | nil =>
      intro b _ hba
      cases b with
      | nil => rfl
      | cons y ys => simp [lexLe] at hba
  | cons x xs ih =>
      intro b hab hba
      cases b with
      | nil => simp [lexLe] at hab
      | cons y ys =>
          simp only [lexLe] at hab hba
          rcases Nat.lt_trichotomy x y with h | h | h
          · exfalso
            rw [if_neg (Nat.lt_asymm h), if_pos h] at hba
            exact Bool.false_ne_true hba
          · subst h
            rw [if_neg (Nat.lt_irrefl x), if_neg (Nat.lt_irrefl x)] at hab hba
            rw [ih ys hab hba]
          · exfalso
            rw [if_neg (Nat.lt_asymm h), if_pos h] at hab
            exact Bool.false_ne_true hab

theorem lexLe_refl : ∀ a, lexLe a a = true := by
  intro a
  induction a with
  | nil => rfl
  | cons x xs ih =>
      simp only [lexLe, Nat.lt_irrefl, if_false]
      exact ih

/-- The sort key comparison used by `hash_directory`: entries ordered by
their (relative) path. -/
def entLe (e₁ e₂ : DirEntry) : Bool := lexLe e₁.rel e₂.rel

/-- `WalkDir::new(root).sort_by_key(|e| e.path().to_path_buf())` in
`hash_directory`: the canonical, enumeration-order-independent ordering
of the directory's entries (a stable comparison sort on the path key,
modelled with insertion sort). -/
def sortEntries (es : List DirEntry) : List DirEntry :=
  es.insertionSort (fun a b => entLe a b = true)

theorem entLe_trans : ∀ a b c : DirEntry, entLe a b = true →
    entLe b c = true → entLe a c = true :=
  fun a b c hab hbc => lexLe_trans a.rel b.rel c.rel hab hbc

theorem entLe_total : ∀ a b : DirEntry, (entLe a b || entLe b a) = true :=
  fun a b => lexLe_total a.rel b.rel

instance : IsTotal DirEntry (fun a b => entLe a b = true) :=
  ⟨fun a b => Bool.or_eq_true_iff.mp (entLe_total a b)⟩

instance : IsTrans DirEntry (fun a b => entLe a b = true) :=
  ⟨entLe_trans⟩

theorem sortEntries_perm (es : List DirEntry) : (sortEntries es).Perm es :=
  List.perm_insertionSort (fun a b => entLe a b = true) es

theorem sortEntries_sorted (es : List DirEntry) :
    (sortEntries es).Pairwise (fun a b => entLe a b = true) :=
  List.sorted_insertionSort (fun a b => entLe a b = true) es

/-- Two path-sorted entry lists that are permutations of each other and
have pairwise-distinct paths are equal: the sort produces one canonical
sequence. -/
theorem sorted_nodup_eq : ∀ l₁ l₂ : List DirEntry, l₁.Perm l₂ →
    l₁.Pairwise (fun a b => entLe a b = true) →
    l₂.Pairwise (fun a b => entLe a b = true) →
    (l₁.map DirEntry.rel).Nodup → l₁ = l₂ := by
  intro l₁
  induction l₁ with
  | nil => intro l₂ hp _ _ _; exact (List.Perm.nil_eq hp).symm ▸ rfl
  | cons a t₁ ih =>
      intro l₂ hp hs₁ hs₂ hnd
      cases l₂ with
      | nil => exact absurd hp.symm (by simp)
      | cons b t₂ =>
          have hab : a = b := by
            by_contra hne
            have ha2 : a ∈ b :: t₂ := hp.mem_iff.mp (List.mem_cons_self a t₁)
            have hb1 : b ∈ a :: t₁ := hp.mem_iff.mpr (List.mem_cons_self b t₂)
            have hbt₁ : b ∈ t₁ := by
              rcases List.mem_cons.mp hb1 with h | h
              · exact absurd h.symm hne
              · exact h
            have hat₂ : a ∈ t₂ := by
              rcases List.mem_cons.mp ha2 with h | h
              · exact absurd h hne
              · exact h
            have h₁ : entLe a b = true := (List.pairwise_cons.mp hs₁).1 b hbt₁
            have h₂ : entLe b a = true := (List.pairwise_cons.mp hs₂).1 a hat₂
            have hrel : a.rel = b.rel := lexLe_antisymm a.rel b.rel h₁ h₂
            have : b.rel ∈ t₁.map DirEntry.rel := List.mem_map_of_mem _ hbt₁
            rw [← hrel] at this
            exact (List.nodup_cons.mp hnd).1 this
          subst hab
          have ht : t₁.Perm t₂ := hp.cons_inv
          rw [ih t₂ ht (List.pairwise_cons.mp hs₁).2 (List.pairwise_cons.mp hs₂).2
            (List.nodup_cons.mp hnd).2]

/-- For permuted entry lists with distinct paths, the sorted enumeration
is identical. -/
theorem sortEntries_canonical (es₁ es₂ : List DirEntry)
    (hperm : es₁.Perm es₂) (hnd : (es₁.map DirEntry.rel).Nodup) :
    sortEntries es₁ = sortEntries es₂ := by
  refine sorted_nodup_eq _ _ ?_ (sortEntries_sorted es₁) (sortEntries_sorted es₂) ?_
  · exact (sortEntries_perm es₁).trans (hperm.trans (sortEntries_perm es₂).symm)
  · exact ((sortEntries_perm es₁).map DirEntry.rel).nodup_iff.mpr hnd

theorem capacity_pos : 0 < CAPACITY := by decide

/-- One iteration of the entry loop in `hash_directory`: when
`include_names`, feed the entry's root-relative path; when the entry is a
regular file, feed its content through the chunked read loop. -/
def entryStep (includeNames : Bool) (h : List Nat) (e : DirEntry) : List Nat :=
  let h' := if includeNames then hashUpdate h e.rel else h
  if e.isFile then (chunksOf CAPACITY e.content).foldl hashUpdate h' else h'

/-- The byte sequence fed to the digest state by `hash_directory`
(`src/local.rs`): entries sorted by path; root base name first when
`include_names`; per entry its relative path (when `include_names`) and,
for regular files only, its content. -/
def dirStream (rootName : List Nat) (entries : List DirEntry)
    (includeNames : Bool) : List Nat :=
  let h0 : List Nat := []
  let h1 := if includeNames then hashUpdate h0 rootName else h0
  (sortEntries entries).foldl (entryStep includeNames) h1

/-- The byte sequence fed to the digest state by `hash_file`
(`src/local.rs`): the file's base name first when `include_names`, then
the content through the chunked read loop. -/
def fileStream (fileName content : List Nat) (includeNames : Bool) :
    List Nat :=
  let h0 : List Nat := []
  let h1 := if includeNames then hashUpdate h0 fileName else h0
  (chunksOf CAPACITY content).foldl hashUpdate h1

/-- The bytes a single entry contributes to the directory digest. -/
def entryBytes (includeNames : Bool) (e : DirEntry) : List Nat :=
  (if includeNames then e.rel else []) ++ (if e.isFile then e.content else [])

theorem entryStep_eq (includeNames : Bool) (h : List Nat) (e : DirEntry) :
    entryStep includeNames h e = h ++ entryBytes includeNames e := by
  unfold entryStep entryBytes
  cases hf : e.isFile <;> cases includeNames <;>
    simp [hashUpdate, foldl_hashUpdate, flatten_chunksOf CAPACITY capacity_pos]

theorem foldl_entryStep (includeNames : Bool) :
    ∀ (es : List DirEntry) (h : List Nat),
    es.foldl (entryStep includeNames) h =
      h ++ es.flatMap (entryBytes includeNames) := by
  intro es
  induction es with
  | nil => intro h; simp
  | cons e es ih =>
      intro h
      simp only [List.foldl_cons, List.flatMap_cons, entryStep_eq, ih,
        List.append_assoc]

theorem fileStream_eq (fileName content : List Nat) (includeNames : Bool) :
    fileStream fileName content includeNames =
      (if includeNames then fileName else []) ++ content := by
  unfold fileStream
  rw [foldl_hashUpdate, flatten_chunksOf CAPACITY capacity_pos]
  cases includeNames <;> simp [hashUpdate]

theorem dirStream_eq (rootName : List Nat) (entries : List DirEntry)
    (includeNames : Bool) :
    dirStream rootName entries includeNames =
      (if includeNames then rootName else []) ++
        (sortEntries entries).flatMap (entryBytes includeNames) := by
  unfold dirStream
  rw [foldl_entryStep]
  cases includeNames <;> simp [hashUpdate]

theorem flatMap_entryBytes_false : ∀ l : List DirEntry,
    l.flatMap (entryBytes false) =
      (l.filter (fun e => e.isFile)).flatMap DirEntry.content := by
  intro l
  induction l with
  | nil => rfl
  | cons e l ih =>
      cases hf : e.isFile <;>
        simp [entryBytes, hf, ih, List.filter_cons]

/-- C1: hashing a directory is canonicalised by the stable sort of the
entries by path: whatever order the OS enumeration delivers the (path-
distinct) entries in, the byte sequence fed to the digest — and hence
the digest — is identical. -/
theorem hashDirectory_enumeration_order_independent
    (rootName : List Nat) (es₁ es₂ : List DirEntry) (includeNames : Bool)
    (hperm : es₁.Perm es₂) (hnd : (es₁.map DirEntry.rel).Nodup) :
    dirStream rootName es₁ includeNames =
      dirStream rootName es₂ includeNames := by
  rw [dirStream_eq, dirStream_eq, sortEntries_canonical es₁ es₂ hperm hnd]

theorem hashDirectory_enumeration_order_independent_witness :
    (([⟨[98], true, [2]⟩, ⟨[97], true, [1]⟩] : List DirEntry).Perm
      [⟨[97], true, [1]⟩, ⟨[98], true, [2]⟩]) ∧
    dirStream [100] [⟨[98], true, [2]⟩, ⟨[97], true, [1]⟩] true =
      dirStream [100] [⟨[97], true, [1]⟩, ⟨[98], true, [2]⟩] true :=
  ⟨by decide,
    hashDirectory_enumeration_order_independent [100]
      [⟨[98], true, [2]⟩, ⟨[97], true, [1]⟩]
      [⟨[97], true, [1]⟩, ⟨[98], true, [2]⟩] true (by decide) (by decide)⟩

/-- C2: with names included, the feed order is fixed: for a single file
the base name precedes all content bytes; for a directory the root's
base name comes first, then every entry (in sorted order) contributes
its root-relative path followed by its content when it is a regular
file, while directory entries contribute only their relative path. -/
theorem nameThenContent_feed_order :
    ∀ (rootName fileName content : List Nat) (entries : List DirEntry),
    fileStream fileName content true = fileName ++ content ∧
    dirStream rootName entries true =
      rootName ++ (sortEntries entries).flatMap
        (fun e => e.rel ++ (if e.isFile then e.content else [])) := by
  intro rootName fileName content entries
  have hEB : entryBytes true =
      fun e : DirEntry => e.rel ++ (if e.isFile then e.content else []) := by
    funext e
    simp [entryBytes]
  constructor
  · rw [fileStream_eq]; simp
  · rw [dirStream_eq, hEB]; simp

/-- C5 fails on the code: names and contents are concatenated with no
separator or length framing, so a rename that changes the sorted
traversal order can feed the very same byte sequence (digest unchanged
even with `include_names = true`); and with `include_names = false` a
rename that reorders files of distinct content changes the fed bytes.
Here the directory {"a" ↦ [120], "bx" ↦ []} is renamed (contents kept)
to {"xb" ↦ [120], "a" ↦ []}: the sorted path sequence changes from
["a", "bx"] to ["a", "xb"], yet the fed bytes agree; and below, with
names excluded, renaming "a" to "z" in {"a" ↦ [1], "b" ↦ [2]} changes
the fed bytes. -/
theorem rename_reorder_digest_counterexample :
    -- the rename keeps the multiset of contents
    (([⟨[97], true, [120]⟩, ⟨[98, 120], true, []⟩] : List DirEntry).map
        DirEntry.content =
      ([⟨[120, 98], true, [120]⟩, ⟨[97], true, []⟩] : List DirEntry).map
        DirEntry.content) ∧
    -- the sorted traversal order (sequence of relative paths) changes
    ((sortEntries [⟨[97], true, [120]⟩, ⟨[98, 120], true, []⟩]).map
        DirEntry.rel ≠
      (sortEntries [⟨[120, 98], true, [120]⟩, ⟨[97], true, []⟩]).map
        DirEntry.rel) ∧
    -- yet with include_names = true the digest input is identical
    (dirStream [100] [⟨[97], true, [120]⟩, ⟨[98, 120], true, []⟩] true =
      dirStream [100] [⟨[120, 98], true, [120]⟩, ⟨[97], true, []⟩] true) ∧
    -- and with include_names = false a reordering rename changes it
    (dirStream [100] [⟨[97], true, [1]⟩, ⟨[98], true, [2]⟩] false ≠
      dirStream [100] [⟨[122], true, [1]⟩, ⟨[98], true, [2]⟩] false) := by
  refine ⟨rfl, by decide, ?_, ?_⟩ <;>
    · simp only [dirStream_eq]
      decide

/-- C5 as amended: with `include_names = false` the digest input is
exactly the concatenation of the regular files' contents in sorted-path
order; consequently a rename leaves the digest unchanged precisely when
it preserves that sorted content sequence, and with `include_names =
true` a rename may or may not change the digest input since names and
contents are concatenated without framing. -/
theorem rename_reorder_digest_amended (rootName : List Nat)
    (es₁ es₂ : List DirEntry) :
    dirStream rootName es₁ false =
      ((sortEntries es₁).filter (fun e => e.isFile)).flatMap
        DirEntry.content ∧
    (((sortEntries es₁).filter (fun e => e.isFile)).map DirEntry.content =
        ((sortEntries es₂).filter (fun e => e.isFile)).map
          DirEntry.content →
      dirStream rootName es₁ false = dirStream rootName es₂ false) := by
  have h1 : ∀ es : List DirEntry, dirStream rootName es false =
      ((sortEntries es).filter (fun e => e.isFile)).flatMap
        DirEntry.content := by
    intro es
    rw [dirStream_eq, flatMap_entryBytes_false]
    simp
  refine ⟨h1 es₁, fun hmap => ?_⟩
  have h2 : ∀ l : List DirEntry,
      l.flatMap DirEntry.content = (l.map DirEntry.content).flatten := by
    intro l
    induction l with
    | nil => rfl
    | cons a l ih => simp [ih]
  rw [h1 es₁, h1 es₂, h2, h2, hmap]

theorem rename_reorder_digest_amended_witness :
    dirStream [100] [⟨[97], true, [1]⟩, ⟨[98], true, [2]⟩] false =
      dirStream [100] [⟨[97, 97], true, [1]⟩, ⟨[98], true, [2]⟩] false :=
  (rename_reorder_digest_amended [100]
      [⟨[97], true, [1]⟩, ⟨[98], true, [2]⟩]
      [⟨[97, 97], true, [1]⟩, ⟨[98], true, [2]⟩]).2 (by decide)

/-! ## Hash identifier parsing and digest comparison (src/hasher.rs)

Reference strings are modelled as `List Char`.  `char::is_whitespace` is
modelled on its ASCII fragment (all inputs of interest here are ASCII).
-/

def isRustWs (c : Char) : Bool :=
  c == ' ' || c == '\t' || c == '\n' || c == '\r' || c == '\x0b' || c == '\x0c'

/-- `str::trim`. -/
def trimChars (l : List Char) : List Char :=
  ((l.dropWhile isRustWs).reverse.dropWhile isRustWs).reverse

/-- `u8::to_ascii_lowercase` / `char::to_ascii_lowercase`. -/
def toLowerChar (c : Char) : Char :=
  if 'A' ≤ c ∧ c ≤ 'Z' then Char.ofNat (c.toNat + 32) else c

/-- `is_hash_equal` from `src/hasher.rs`:
`origin_hash_sum.eq_ignore_ascii_case(calculated_hash_sum)` — ASCII
case-insensitive equality. -/
def is_hash_equal (origin_hash_sum calculated_hash_sum : List Char) : Bool :=
  origin_hash_sum.map toLowerChar == calculated_hash_sum.map toLowerChar

/-- `is_hash_equal` from the historical variant `src/verify.rs`:
`origin_hash_sum != calculated_hash_sum` — despite its name, a strict
(case-sensitive) inequality test. -/
def verify_is_hash_equal (origin_hash_sum calculated_hash_sum : List Char) :
    Bool :=
  !(origin_hash_sum == calculated_hash_sum)

inductive Algorithm where
  | SHA2_224 | SHA2_256 | SHA2_384 | SHA2_512
  | SHA3_224 | SHA3_256 | SHA3_384 | SHA3_512
  deriving DecidableEq, Repr

/-- The alias match arms of `<Algorithm as FromStr>::from_str`, applied
to the already trimmed and lowercased input. -/
def algOfLower (s : List Char) : Option Algorithm :=
  if s = "sha224".data ∨ s = "sha2-224".data ∨ s = "sha2_224".data then
    some .SHA2_224
  else if s = "sha256".data ∨ s = "sha2-256".data ∨ s = "sha2_256".data then
    some .SHA2_256
  else if s = "sha384".data ∨ s = "sha2-384".data ∨ s = "sha2_384".data then
    some .SHA2_384
  else if s = "sha512".data ∨ s = "sha2-512".data ∨ s = "sha2_512".data then
    some .SHA2_512
  else if s = "sha3-224".data ∨ s = "sha3_224".data then some .SHA3_224
  else if s = "sha3-256".data ∨ s = "sha3_256".data then some .SHA3_256
  else if s = "sha3-384".data ∨ s = "sha3_384".data then some .SHA3_384
  else if s = "sha3-512".data ∨ s = "sha3_512".data then some .SHA3_512
  else none

/-- `<Algorithm as FromStr>::from_str` (`src/hasher.rs`):
`v.trim().to_ascii_lowercase()` matched against the alias table.  The
source's `Err(ParseAlgorithmError)` is `none` here. -/
def Algorithm.from_str (v : List Char) : Option Algorithm :=
  algOfLower ((trimChars v).map toLowerChar)

inductive HashValidationError where
  /-- The source's unknown-algorithm error case (its constructor is
  named after the unresolved algorithm part before the colon). -/
  | UnknownAlgoName
  | EmptyHash
  /-- `HexError(String)`; the carried message is not modelled. -/
  | HexError
  deriving DecidableEq, Repr

structure HashProperty where
  hash : List Char
  algorithm : Option Algorithm
  deriving DecidableEq, Repr

/-- `str::split_once(':')`. -/
def splitOnceColon : List Char → Option (List Char × List Char)
  | [] => none
  | c :: cs =>
      if c = ':' then some ([], cs)
      else
        match splitOnceColon cs with
        | some (p, r) => some (c :: p, r)
        | none => none

def isHexDigitChar (c : Char) : Bool :=
  ('0' ≤ c && c ≤ '9') || ('a' ≤ c && c ≤ 'f') || ('A' ≤ c && c ≤ 'F')

/-- `hex::decode` succeeds exactly on an even number of hex digits; only
the success condition matters here. -/
def hexDecodeOk (l : List Char) : Bool :=
  (l.length % 2 == 0) && l.all isHexDigitChar

/-- `parse_hash` (`src/hasher.rs`): reject all-whitespace input, split
off an optional `algorithm:` part before the first colon (which must
resolve), then require the remainder to hex-decode. -/
def parse_hash (input : List Char) :
    Except HashValidationError HashProperty :=
  if trimChars input = [] then .error .EmptyHash
  else
    match splitOnceColon input with
    | some (p, rest) =>
        match Algorithm.from_str p with
        | some alg =>
            if hexDecodeOk rest then .ok ⟨rest, some alg⟩
            else .error .HexError
        | none => .error .UnknownAlgoName
    | none =>
        if hexDecodeOk input then .ok ⟨input, none⟩
        else .error .HexError

theorem mem_dropWhile_of_not_ws {c : Char} :
    ∀ l : List Char, c ∈ l → isRustWs c = false →
      c ∈ l.dropWhile isRustWs := by
  intro l
  induction l with
  | nil => intro h _; exact absurd h (List.not_mem_nil c)
  | cons a t ih =>
      intro hmem hws
      by_cases ha : isRustWs a = true
      · rw [List.dropWhile_cons_of_pos ha]
        rcases List.mem_cons.mp hmem with rfl | hmt
        · rw [hws] at ha; exact absurd ha (by simp)
        · exact ih hmt hws
      · rw [List.dropWhile_cons_of_neg ha]
        exact hmem

theorem mem_trim_of_not_ws {c : Char} {l : List Char} (hmem : c ∈ l)
    (hws : isRustWs c = false) : c ∈ trimChars l := by
  unfold trimChars
  rw [List.mem_reverse]
  refine mem_dropWhile_of_not_ws _ ?_ hws
  rw [List.mem_reverse]
  exact mem_dropWhile_of_not_ws _ hmem hws

theorem trim_ne_nil_of_mem {c : Char} {l : List Char} (hmem : c ∈ l)
    (hws : isRustWs c = false) : trimChars l ≠ [] :=
  fun hnil => by
    have := mem_trim_of_not_ws hmem hws
    rw [hnil] at this
    exact absurd this (List.not_mem_nil c)

theorem dropWhile_eq_self_of_no_ws :
    ∀ l : List Char, (∀ c ∈ l, isRustWs c = false) →
      l.dropWhile isRustWs = l := by
  intro l h
  cases l with
  | nil => rfl
  | cons a t =>
      exact List.dropWhile_cons_of_neg
        (by rw [h a (List.mem_cons_self a t)]; simp)

theorem trim_eq_self_of_no_ws {l : List Char}
    (h : ∀ c ∈ l, isRustWs c = false) : trimChars l = l := by
  unfold trimChars
  rw [dropWhile_eq_self_of_no_ws l h]
  rw [dropWhile_eq_self_of_no_ws l.reverse
    (fun c hc => h c (List.mem_reverse.mp hc))]
  exact List.reverse_reverse l

theorem dropWhile_eq_nil_of_all_ws :
    ∀ l : List Char, (∀ c ∈ l, isRustWs c = true) →
      l.dropWhile isRustWs = [] := by
  intro l
  induction l with
  | nil => intro _; rfl
  | cons a t ih =>
      intro h
      rw [List.dropWhile_cons_of_pos (h a (List.mem_cons_self a t))]
      exact ih (fun c hc => h c (List.mem_cons_of_mem a hc))

theorem trim_eq_nil_of_all_ws {l : List Char}
    (h : ∀ c ∈ l, isRustWs c = true) : trimChars l = [] := by
  unfold trimChars
  rw [dropWhile_eq_nil_of_all_ws l h]
  rfl

theorem splitOnceColon_append {a : List Char} (ha : ':' ∉ a)
    (s : List Char) : splitOnceColon (a ++ ':' :: s) = some (a, s) := by
  induction a with
  | nil => simp [splitOnceColon]
  | cons c cs ih =>
      have hc : ¬c = ':' := fun h => ha (h ▸ List.mem_cons_self c cs)
      have ih' := ih (fun h => ha (List.mem_cons_of_mem c h))
      simp only [List.cons_append, splitOnceColon, if_neg hc,
        List.append_eq, ih']

theorem splitOnceColon_eq_none :
    ∀ l : List Char, ':' ∉ l → splitOnceColon l = none := by
  intro l
  induction l with
  | nil => intro _; rfl
  | cons c cs ih =>
      intro h
      have hc : ¬c = ':' := fun hceq => h (hceq ▸ List.mem_cons_self c cs)
      simp only [splitOnceColon, if_neg hc,
        ih (fun hm => h (List.mem_cons_of_mem c hm))]

theorem colon_not_mem_algOfLower {s : List Char} {alg : Algorithm}
    (h : algOfLower s = some alg) : ':' ∉ s := by
  intro hc
  unfold algOfLower at h
  split_ifs at h with h1 h2 h3 h4 h5 h6 h7 h8
  all_goals first
    | exact Option.noConfusion h
    | (rcases h1 with rfl | rfl | rfl <;> exact absurd hc (by decide))
    | (rcases h2 with rfl | rfl | rfl <;> exact absurd hc (by decide))
    | (rcases h3 with rfl | rfl | rfl <;> exact absurd hc (by decide))
    | (rcases h4 with rfl | rfl | rfl <;> exact absurd hc (by decide))
    | (rcases h5 with rfl | rfl <;> exact absurd hc (by decide))
    | (rcases h6 with rfl | rfl <;> exact absurd hc (by decide))
    | (rcases h7 with rfl | rfl <;> exact absurd hc (by decide))
    | (rcases h8 with rfl | rfl <;> exact absurd hc (by decide))

theorem colon_not_mem_of_from_str {a : List Char} {alg : Algorithm}
    (h : Algorithm.from_str a = some alg) : ':' ∉ a := by
  intro hc
  have h1 : ':' ∈ trimChars a := mem_trim_of_not_ws hc (by decide)
  have h2 : ':' ∈ (trimChars a).map toLowerChar := by
    have hl : toLowerChar ':' = ':' := by decide
    exact hl ▸ List.mem_map_of_mem toLowerChar h1
  exact colon_not_mem_algOfLower h h2

theorem hex_char_not_ws {c : Char} (h : isHexDigitChar c = true) :
    isRustWs c = false := by
  by_contra hws
  have hws' : isRustWs c = true := by
    cases hw : isRustWs c
    · exact absurd hw hws
    · rfl
  simp only [isRustWs, Bool.or_eq_true, beq_iff_eq] at hws'
  rcases hws' with ((((rfl | rfl) | rfl) | rfl) | rfl) | rfl <;>
    exact absurd h (by decide)

/-- C6 fails at one of its cited code places: the comparison in
`src/verify.rs` (also named `is_hash_equal`) returns
`origin != calculated`, i.e. `true` exactly when the strings differ
byte-for-byte — so `compare("A1B2", "a1b2c3")` is `true` (the claim
requires `false`), `compare("", "a1b2")` is `true` (the claim requires
`false`), and two equal digests compare as `false`. -/
theorem digest_compare_counterexample :
    verify_is_hash_equal "A1B2".data "a1b2c3".data = true ∧
    verify_is_hash_equal [] "a1b2".data = true ∧
    verify_is_hash_equal "a1b2".data "a1b2".data = false := by
  decide

/-- C6 as amended: the digest comparison used by the current command
handlers (`is_hash_equal` in `src/hasher.rs`) returns `true` exactly on
ASCII case-insensitive equality — with the three cited examples — while
the historical variant in `src/verify.rs` instead returns `true` exactly
when the two strings differ byte-for-byte. -/
theorem digest_compare_characterisation :
    (∀ a b : List Char, is_hash_equal a b = true ↔
      a.map toLowerChar = b.map toLowerChar) ∧
    (∀ a b : List Char, verify_is_hash_equal a b = true ↔ a ≠ b) ∧
    is_hash_equal "A1B2".data "a1b2".data = true ∧
    is_hash_equal "A1B2".data "a1b2c3".data = false ∧
    is_hash_equal [] "a1b2".data = false := by
  refine ⟨?_, ?_, by decide, by decide, by decide⟩
  · intro a b
    simp [is_hash_equal]
  · intro a b
    simp [verify_is_hash_equal]

/-- C7: every well-formed reference hash parses as claimed: a bare
non-empty even-length hex string `h` yields `{hash := h, algorithm :=
none}` with its character case preserved, and `a:h` for a resolvable
algorithm alias `a` yields `{hash := h, algorithm := some alg}`. -/
theorem parse_hash_wellformed (h a : List Char) (alg : Algorithm) :
    (h ≠ [] → h.all isHexDigitChar = true → h.length % 2 = 0 →
      parse_hash h = .ok ⟨h, none⟩) ∧
    (Algorithm.from_str a = some alg → h.all isHexDigitChar = true →
      h.length % 2 = 0 → parse_hash (a ++ ':' :: h) = .ok ⟨h, some alg⟩) := by
  constructor
  · intro hne hhex heven
    have hnws : ∀ c ∈ h, isRustWs c = false := fun c hc =>
      hex_char_not_ws (List.all_eq_true.mp hhex c hc)
    have hcolon : ':' ∉ h := fun hc =>
      absurd (List.all_eq_true.mp hhex ':' hc) (by decide)
    have hdec : hexDecodeOk h = true := by
      unfold hexDecodeOk
      rw [hhex, heven]
      rfl
    unfold parse_hash
    rw [if_neg (by rw [trim_eq_self_of_no_ws hnws]; exact hne),
      splitOnceColon_eq_none h hcolon, if_pos hdec]
  · intro hfrom hhex heven
    have hmem : ':' ∈ a ++ ':' :: h :=
      List.mem_append.mpr (Or.inr (List.mem_cons_self ':' h))
    have hne : trimChars (a ++ ':' :: h) ≠ [] :=
      trim_ne_nil_of_mem hmem (by decide)
    have hdec : hexDecodeOk h = true := by
      unfold hexDecodeOk
      rw [hhex, heven]
      rfl
    unfold parse_hash
    rw [if_neg hne]
    simp only [splitOnceColon_append (colon_not_mem_of_from_str hfrom) h,
      hfrom, hdec, eq_self_iff_true, if_true]

theorem parse_hash_wellformed_witness :
    parse_hash "AbCd12".data = .ok ⟨"AbCd12".data, none⟩ ∧
    parse_hash ("Sha2_256".data ++ ':' :: "AbCd12".data) =
      .ok ⟨"AbCd12".data, some .SHA2_256⟩ :=
  ⟨(parse_hash_wellformed "AbCd12".data "Sha2_256".data .SHA2_256).1
      (by decide) (by decide) (by decide),
    (parse_hash_wellformed "AbCd12".data "Sha2_256".data .SHA2_256).2
      (by decide) (by decide) (by decide)⟩

/-- C10: an input that starts with a colon — more generally, whose part
before the first colon is empty or all whitespace — fails with the
unknown-algorithm error, even when the remainder is valid hex: the
empty/whitespace part is resolved like any algorithm name and is not
treated as the absent-prefix case. -/
theorem parse_hash_empty_tag (p s : List Char)
    (hws : ∀ c ∈ p, isRustWs c = true) :
    parse_hash (p ++ ':' :: s) = .error .UnknownAlgoName := by
  have hmem : ':' ∈ p ++ ':' :: s :=
    List.mem_append.mpr (Or.inr (List.mem_cons_self ':' s))
  have hne : trimChars (p ++ ':' :: s) ≠ [] :=
    trim_ne_nil_of_mem hmem (by decide)
  have hcolon : ':' ∉ p := fun hc => absurd (hws ':' hc) (by decide)
  have hfrom : Algorithm.from_str p = none := by
    unfold Algorithm.from_str
    rw [trim_eq_nil_of_all_ws hws]
    rfl
  unfold parse_hash
  rw [if_neg hne]
  simp only [splitOnceColon_append hcolon s, hfrom]

theorem parse_hash_empty_tag_witness :
    parse_hash ([] ++ ':' :: "deadbeef".data) = .error .UnknownAlgoName ∧
    parse_hash ([' '] ++ ':' :: "deadbeef".data) = .error .UnknownAlgoName :=
  ⟨parse_hash_empty_tag [] "deadbeef".data (by decide),
    parse_hash_empty_tag [' '] "deadbeef".data (by decide)⟩

/-! ## Download pipeline (src/download.rs)

An HTTP response is modelled by the three headers the size-detection
algorithm inspects (each `none` when absent).  Error values carry the
source's message text (the path interpolated into the write-failure
message is not modelled). -/

inductive FileSizeState where
  | Known (totalSize : Nat)
  | Unknown
  | Chunked
  deriving DecidableEq, Repr

inductive DownloadError where
  | DownloadFailed (msg : String)
  | DownloadInterrupted
  deriving DecidableEq, Repr

structure HttpResponse where
  contentLength : Option (List Char)
  contentRange : Option (List Char)
  transferEncoding : Option (List Char)

def sizeErrMsg : String :=
  "The file size could not be determined from the server response"

def unknownSizeMsg : String :=
  "The response from the server did not contain any information on how to handle the file size of the file to be downloaded. Please check the server or try to download the file from another source."

/-- Rust's `str::parse::<usize>()`: an optional leading `+`, then one or
more decimal digits.  (Overflow beyond `usize::MAX` is not modelled;
it is irrelevant to realistic header values.) -/
def parseUsize (l : List Char) : Option Nat :=
  let ds := match l with
    | '+' :: rest => rest
    | _ => l
  if ds ≠ [] ∧ ds.all Char.isDigit then
    some (ds.foldl (fun n c => n * 10 + (c.toNat - 48)) 0)
  else none

/-- `get_content_length` (`src/download.rs`): an absent header is
`Unknown`; a present header must parse to a positive integer, otherwise
the function fails immediately. -/
def get_content_length (r : HttpResponse) :
    Except DownloadError FileSizeState :=
  match r.contentLength with
  | some headerValue =>
      match parseUsize headerValue with
      | some totalSize =>
          if totalSize > 0 then .ok (.Known totalSize)
          else .error (.DownloadFailed sizeErrMsg)
      | none => .error (.DownloadFailed sizeErrMsg)
  | none => .ok .Unknown

/-- The segment after the final `/`: `header_value.split('/').last()` in
the source (`split` always yields at least one segment, so the source's
unreachable `None` arm is not modelled). -/
def lastSlashSeg (v : List Char) : List Char :=
  (v.reverse.takeWhile (fun c => c ≠ '/')).reverse

/-- `get_content_range` (`src/download.rs`): the total-size segment
after the final `/`; a segment containing `*` is `Unknown`; otherwise it
must parse to a positive integer or the function fails immediately. -/
def get_content_range (r : HttpResponse) :
    Except DownloadError FileSizeState :=
  match r.contentRange with
  | some headerValue =>
      let totalSeg := lastSlashSeg headerValue
      if totalSeg.contains '*' then .ok .Unknown
      else
        match parseUsize totalSeg with
        | some totalSize =>
            if totalSize > 0 then .ok (.Known totalSize)
            else .error (.DownloadFailed sizeErrMsg)
        | none => .error (.DownloadFailed sizeErrMsg)
  | none => .ok .Unknown

def leadsWith : List Char → List Char → Bool
  | [], _ => true
  | _ :: _, [] => false
  | a :: as, b :: bs => a == b && leadsWith as bs

/-- `str::contains(pat)`: `pat` occurs as a contiguous substring. -/
def hasSub (pat : List Char) : List Char → Bool
  | [] => leadsWith pat []
  | l@(_ :: t) => leadsWith pat l || hasSub pat t

/-- `get_transfer_encoding` (`src/download.rs`). -/
def get_transfer_encoding (r : HttpResponse) :
    Except DownloadError FileSizeState :=
  match r.transferEncoding with
  | some headerValue =>
      if hasSub "chunked".data headerValue then .ok .Chunked
      else .ok .Unknown
  | none => .ok .Unknown

/-- `get_file_size_state` (`src/download.rs`): content-length, then (on
`Unknown` only) content-range, then (on `Unknown` only)
transfer-encoding; errors short-circuit via `?`. -/
def get_file_size_state (r : HttpResponse) :
    Except DownloadError FileSizeState :=
  match get_content_length r with
  | .error e => .error e
  | .ok fss =>
      match fss with
      | .Unknown =>
          match get_content_range r with
          | .error e => .error e
          | .ok fss2 =>
              match fss2 with
              | .Unknown => get_transfer_encoding r
              | _ => .ok fss2
      | _ => .ok fss

/-- The size gate at the top of `execute_download`: a final `Unknown`
is a hard failure with the explanatory message. -/
def sizeGate (r : HttpResponse) : Except DownloadError FileSizeState :=
  match get_file_size_state r with
  | .error e => .error e
  | .ok .Unknown => .error (.DownloadFailed unknownSizeMsg)
  | .ok fss => .ok fss

instance {ε α : Type} [DecidableEq ε] [DecidableEq α] :
    DecidableEq (Except ε α) := fun x y => by
  cases x with
  | error e₁ =>
      cases y with
      | error e₂ => exact decidable_of_iff (e₁ = e₂) (by simp)
      | ok a₂ => exact isFalse (by simp)
  | ok a₁ =>
      cases y with
      | error e₂ => exact isFalse (by simp)
      | ok a₂ => exact decidable_of_iff (a₁ = a₂) (by simp)

/-- C3 fails on the code: a present `Content-Length` of `0` (or an
unparsable one) makes size detection error immediately — even though the
`Content-Range` strategy would have produced `Known 100` — instead of
falling through to the remaining strategies. -/
theorem content_length_zero_counterexample :
    get_file_size_state
        ⟨some "0".data, some "bytes 0-99/100".data, some "chunked".data⟩ =
      .error (.DownloadFailed sizeErrMsg) ∧
    get_content_range
        ⟨some "0".data, some "bytes 0-99/100".data, some "chunked".data⟩ =
      .ok (.Known 100) ∧
    get_file_size_state
        ⟨some "abc".data, some "bytes 0-99/100".data, some "chunked".data⟩ =
      .error (.DownloadFailed sizeErrMsg) := by
  decide

/-- C3 as amended: a `Content-Length` header that is present but zero or
unparsable fails the download immediately with the size error; only an
*absent* `Content-Length` proceeds to the `Content-Range` strategy and
then to the `Transfer-Encoding` strategy. -/
theorem content_length_gate_amended (r : HttpResponse) (v : List Char) :
    (r.contentLength = some v →
      parseUsize v = none ∨ parseUsize v = some 0 →
      get_file_size_state r = .error (.DownloadFailed sizeErrMsg)) ∧
    (r.contentLength = none →
      get_file_size_state r =
        match get_content_range r with
        | .error e => .error e
        | .ok .Unknown => get_transfer_encoding r
        | .ok fss => .ok fss) := by
  constructor
  · intro hv hbad
    have hcl : get_content_length r = .error (.DownloadFailed sizeErrMsg) := by
      unfold get_content_length
      rw [hv]
      rcases hbad with h | h <;> simp [h]
    unfold get_file_size_state
    rw [hcl]
  · intro hnone
    have hcl : get_content_length r = .ok .Unknown := by
      unfold get_content_length
      rw [hnone]
    unfold get_file_size_state
    rw [hcl]
    cases hcr : get_content_range r with
    | error e => rfl
    | ok fss => cases fss <;> rfl

theorem content_length_gate_amended_witness :
    get_file_size_state ⟨some "0".data, some "bytes 0-99/100".data, none⟩ =
      .error (.DownloadFailed sizeErrMsg) ∧
    get_file_size_state ⟨none, some "bytes 0-99/100".data, none⟩ =
      .ok (.Known 100) :=
  ⟨(content_length_gate_amended
        ⟨some "0".data, some "bytes 0-99/100".data, none⟩ "0".data).1 rfl
      (by decide),
    (content_length_gate_amended
        ⟨none, some "bytes 0-99/100".data, none⟩ []).2 rfl⟩

set_option maxRecDepth 4000 in
/-- C4 fails on the code: a `*` total-size segment in `Content-Range`
yields `Unknown` (not `Chunked`), so with no other usable header the
download is rejected by the size gate instead of proceeding with a
spinner. -/
theorem content_range_star_counterexample :
    get_content_range ⟨none, some "bytes 0-99/*".data, none⟩ =
      .ok .Unknown ∧
    get_file_size_state ⟨none, some "bytes 0-99/*".data, none⟩ ≠
      .ok .Chunked ∧
    sizeGate ⟨none, some "bytes 0-99/*".data, none⟩ =
      .error (.DownloadFailed unknownSizeMsg) := by
  decide

/-- C4 as amended: with no usable `Content-Length`, a `*` total-size
segment makes the `Content-Range` strategy yield `Unknown`, deferring to
the `Transfer-Encoding` strategy: the download is classified `Chunked`
exactly when that header contains `chunked`, and is `Unknown` (a hard
failure at the size gate) otherwise. -/
theorem content_range_star_amended (r : HttpResponse) (v w : List Char)
    (hcl : r.contentLength = none) (hcr : r.contentRange = some v)
    (hstar : (lastSlashSeg v).contains '*' = true) :
    get_file_size_state r = get_transfer_encoding r ∧
    (r.transferEncoding = some w → hasSub "chunked".data w = true →
      get_file_size_state r = .ok .Chunked) ∧
    (r.transferEncoding = some w → hasSub "chunked".data w = false →
      sizeGate r = .error (.DownloadFailed unknownSizeMsg)) := by
  have hclU : get_content_length r = .ok .Unknown := by
    unfold get_content_length
    rw [hcl]
  have hcrU : get_content_range r = .ok .Unknown := by
    unfold get_content_range
    rw [hcr]
    exact if_pos hstar
  have hmain : get_file_size_state r = get_transfer_encoding r := by
    unfold get_file_size_state
    rw [hclU, hcrU]
  refine ⟨hmain, fun hte hchk => ?_, fun hte hchk => ?_⟩
  · rw [hmain]
    unfold get_transfer_encoding
    rw [hte]
    exact if_pos hchk
  · have hteU : get_transfer_encoding r = .ok .Unknown := by
      unfold get_transfer_encoding
      rw [hte]
      exact if_neg (by rw [hchk]; exact Bool.false_ne_true)
    unfold sizeGate
    rw [hmain, hteU]

set_option maxRecDepth 4000 in
theorem content_range_star_amended_witness :
    get_file_size_state
        ⟨none, some "bytes 0-99/*".data, some "chunked".data⟩ =
      .ok .Chunked ∧
    sizeGate ⟨none, some "bytes 0-99/*".data, some "identity".data⟩ =
      .error (.DownloadFailed unknownSizeMsg) :=
  ⟨((content_range_star_amended
        ⟨none, some "bytes 0-99/*".data, some "chunked".data⟩
        "bytes 0-99/*".data "chunked".data rfl rfl (by decide)).2).1
      rfl (by decide),
    ((content_range_star_amended
        ⟨none, some "bytes 0-99/*".data, some "identity".data⟩
        "bytes 0-99/*".data "identity".data rfl rfl (by decide)).2).2
      rfl (by decide)⟩

/-! ## Streaming loops and outcome handling (src/download.rs)

One streaming iteration first reads from the response body, then writes
the buffer to the file, accumulates the byte count, updates the progress
indicator, and treats a zero-length read as clean EOF.  An iteration is
modelled by what the environment does to it: a failing read, or a read
of `bytes` whose subsequent write succeeds or fails. -/

inductive ReadEvent where
  | readErr
  | readOk (bytes : List Nat) (writeOk : Bool)
  deriving DecidableEq, Repr

def readFailMsg : String := "Failed to read data from server response"

/-- The source's message carries the destination path; not modelled. -/
def writeFailMsg : String :=
  "Unable to write data from server response into file"

/-- The body-streaming loop of `make_streamed_download`
(`src/download.rs`), returning the loop's terminal result (`none` when
the event list is exhausted with the loop still running) together with
the accumulated `downloaded_bytes` on success.  Note that the loop body
consults nothing besides the read/write results — in particular no
cancellation flag. -/
def streamedLoop (downloadedBytes : Nat) :
    List ReadEvent → Option (Except DownloadError Nat)
  | [] => none
  | e :: es =>
      match e with
      | .readErr => some (.error (.DownloadFailed readFailMsg))
      | .readOk bytes writeOk =>
          if writeOk then
            if bytes.length = 0 then some (.ok downloadedBytes)
            else streamedLoop (downloadedBytes + bytes.length) es
          else some (.error (.DownloadFailed writeFailMsg))

/-- What `handle_download_result` (`src/download.rs`) does with a
terminal download result: success returns, `DownloadInterrupted` prints
the interrupted message and terminates the process, any other error is
propagated to the caller. -/
inductive HandledOutcome where
  | success
  | exitInterrupted
  | propagatedError (msg : String)
  deriving DecidableEq, Repr

def handle_download_result : Except DownloadError Unit → HandledOutcome
  | .ok _ => .success
  | .error .DownloadInterrupted => .exitInterrupted
  | .error (.DownloadFailed m) => .propagatedError m

/-- The streaming loop as claim C8 describes it, for comparison with
`streamedLoop`: a shared cancellation flag is consulted at every
iteration and, once signalled, the loop reports the distinct
`DownloadInterrupted` outcome.  This follows the claim's words and is
not part of the source. -/
def streamedLoopPerSpec (cancelled : Bool) (downloadedBytes : Nat) :
    List ReadEvent → Option (Except DownloadError Nat)
  | [] => if cancelled then some (.error .DownloadInterrupted) else none
  | e :: es =>
      if cancelled then some (.error .DownloadInterrupted)
      else
        match e with
        | .readErr => some (.error (.DownloadFailed readFailMsg))
        | .readOk bytes writeOk =>
            if writeOk then
              if bytes.length = 0 then some (.ok downloadedBytes)
              else streamedLoopPerSpec cancelled
                (downloadedBytes + bytes.length) es
            else some (.error (.DownloadFailed writeFailMsg))

/-- C8 fails on the code: with cancellation signalled before the first
chunk, the claimed behaviour reports `DownloadInterrupted`, but the
source's streaming loop — which consults no cancellation flag at all —
still streams to completion and succeeds. -/
theorem streaming_cancellation_counterexample :
    streamedLoopPerSpec true 0 [.readOk [1, 2, 3] true, .readOk [] true] =
      some (.error .DownloadInterrupted) ∧
    streamedLoop 0 [.readOk [1, 2, 3] true, .readOk [] true] =
      some (.ok 3) := by
  decide

/-- C8 as amended: the streaming loop performs no cancellation check
(its outcome is a function of the read/write events alone, and it never
produces `DownloadInterrupted`); user interruption is instead handled by
a Ctrl-C handler that exits the process directly.
`handle_download_result` does keep `DownloadInterrupted` distinct from
`DownloadFailed` — terminating with the interrupted notice rather than
propagating an error — but no streaming iteration can report it. -/
theorem streaming_cancellation_amended :
    (∀ (downloadedBytes : Nat) (events : List ReadEvent),
      streamedLoop downloadedBytes events ≠
        some (.error .DownloadInterrupted)) ∧
    handle_download_result (.error .DownloadInterrupted) =
      .exitInterrupted ∧
    (∀ m, handle_download_result (.error (.DownloadFailed m)) =
      .propagatedError m) := by
  refine ⟨?_, rfl, fun m => rfl⟩
  intro downloadedBytes events
  induction events generalizing downloadedBytes with
  | nil => simp [streamedLoop]
  | cons e es ih =>
      cases e with
      | readErr => simp [streamedLoop, readFailMsg]
      | readOk bytes w =>
          cases w with
          | false => simp [streamedLoop, writeFailMsg]
          | true =>
              by_cases hb : bytes.length = 0
              · simp [streamedLoop, hb]
              · simpa [streamedLoop, hb] using ih (downloadedBytes + bytes.length)

/-- The body-streaming loop of `make_known_size_download`
(`src/download.rs`): as `streamedLoop`, but it also drives a bounded
progress bar, setting its position each iteration to
`min(downloaded_bytes, total_size)`.  Returns the list of positions set
(in order) together with the loop's terminal result. -/
def knownSizeLoop (totalSize downloadedBytes : Nat) :
    List ReadEvent → List Nat × Option (Except DownloadError Nat)
  | [] => ([], none)
  | e :: es =>
      match e with
      | .readErr => ([], some (.error (.DownloadFailed readFailMsg)))
      | .readOk bytes writeOk =>
          if writeOk then
            let newDownloaded := downloadedBytes + bytes.length
            let pbValue := min newDownloaded totalSize
            if bytes.length = 0 then ([pbValue], some (.ok newDownloaded))
            else
              let rest := knownSizeLoop totalSize newDownloaded es
              (pbValue :: rest.1, rest.2)
          else ([], some (.error (.DownloadFailed writeFailMsg)))

/-- The running totals of bytes written at each completed iteration of
the streaming loop (independent of any progress reporting). -/
def writtenCums (downloadedBytes : Nat) : List ReadEvent → List Nat
  | [] => []
  | e :: es =>
      match e with
      | .readErr => []
      | .readOk bytes writeOk =>
          if writeOk then
            if bytes.length = 0 then [downloadedBytes + bytes.length]
            else (downloadedBytes + bytes.length) ::
              writtenCums (downloadedBytes + bytes.length) es
          else []

/-- C9: in a known-size download every progress-bar position set by the
streaming loop is the minimum of the bytes written so far and the
declared total size, so the reported position never exceeds the
announced total even when the body delivers more bytes than the headers
declared. -/
theorem progress_position_min (totalSize downloadedBytes : Nat)
    (events : List ReadEvent) :
    (knownSizeLoop totalSize downloadedBytes events).1 =
      (writtenCums downloadedBytes events).map (fun c => min c totalSize) ∧
    ∀ p ∈ (knownSizeLoop totalSize downloadedBytes events).1,
      p ≤ totalSize := by
  have hmain : ∀ (evs : List ReadEvent) (dl : Nat),
      (knownSizeLoop totalSize dl evs).1 =
        (writtenCums dl evs).map (fun c => min c totalSize) := by
    intro evs
    induction evs with
    | nil => intro dl; rfl
    | cons e es ih =>
        intro dl
        cases e with
        | readErr => rfl
        | readOk bytes w =>
            cases w with
            | false => rfl
            | true =>
                by_cases hb : bytes.length = 0 <;>
                  simp [knownSizeLoop, writtenCums, hb, ih]
  refine ⟨hmain events downloadedBytes, fun p hp => ?_⟩
  rw [hmain events downloadedBytes] at hp
  rcases List.mem_map.mp hp with ⟨c, _, rfl⟩
  exact Nat.min_le_right c totalSize

theorem progress_position_min_witness :
    (knownSizeLoop 2 0 [.readOk [9, 9, 9] true, .readOk [] true]).1 =
      [2, 2] ∧ (2 : Nat) ≤ 2 :=
  ⟨(progress_position_min 2 0 [.readOk [9, 9, 9] true, .readOk [] true]).1.trans
      (by decide),
    (progress_position_min 2 0 [.readOk [9, 9, 9] true, .readOk [] true]).2
      2 (by decide)⟩
